import Mathlib

/-!
Shallow embedding of `src/parser.py`, a small parser-combinator engine.

Python strings are modelled as `List Char`; Python object references to
parser nodes are modelled as addresses (`Nat`) into a `Grammar` heap
(a list of parser nodes), which lets grammars be cyclic exactly as the
mutable Python object graph allows.  The call stack of the recursive
`parse` methods is modelled with an explicit fuel argument: a result of
`none` means the fuel ran out, `some r` means the Python call returns `r`.
-/

namespace ParserSpec

/-- Python `str`, viewed as its list of characters. -/
abbrev Str := List Char

/-- An address of a parser object in the heap (Python object identity). -/
abbrev Addr := Nat

/-- A parse outcome, mirroring the Python class `ParseResult`.
`failed` is the one sentinel `ParseResult.FAILED = ParseResult(None, None)`
(the `None` parser and `None` payload are represented by the constructor
carrying no fields); `strRes` is a success whose `parsed` payload is a
string (leaf match); `listRes` is a success whose `parsed` payload is a
list of child results (combinator match).  The `parser` field is the
address of the parser object that produced the result. -/
inductive ParseResult where
  | failed : ParseResult
  | strRes (parser : Addr) (parsed : Str) : ParseResult
  | listRes (parser : Addr) (parsed : List ParseResult) : ParseResult

/-- The process-wide failure sentinel `ParseResult.FAILED`. -/
def ParseResult.FAILED : ParseResult := ParseResult.failed

mutual
/-- The `length` property of `ParseResult`.  The failure branch and the
string-payload branch follow `src/parser.py` (`0` for the sentinel, the
number of characters for a leaf match).  Modelled from the spec: the
list-payload branch, where the source raises `NotImplementedError`, is
the behaviour the spec mandates (§3, §4.1): the sum of the children's
lengths, `0` for an empty child list. -/
def ParseResult.length : ParseResult → Nat
  | .failed => 0
  | .strRes _ s => s.length
  | .listRes _ rs => ParseResult.lengthSum rs

/-- Sum of `ParseResult.length` over a list of results. -/
def ParseResult.lengthSum : List ParseResult → Nat
  | [] => 0
  | r :: rs => r.length + ParseResult.lengthSum rs
end

/-- Python's `result == ParseResult.FAILED` identity test. -/
def ParseResult.isFailure : ParseResult → Bool
  | .failed => true
  | _ => false

example : (ParseResult.listRes 0 [.strRes 0 ['a'], .failed]).length = 1 := rfl
example : (ParseResult.listRes 0 []).length = 0 := rfl

/-!
Regular expressions.  `src/parser.py` delegates pattern matching to
Python's `re` module (`re.compile(pattern).match(text)`), an external
library.  We model the fragment of `re` the repository exercises: a
small regex AST (`epsilon`, character classes, concatenation, left-first
alternation, greedy star) together with Python's anchored backtracking
match.  `ends fuel p s` lists the lengths of all prefixes of `s` that
`p` can match, in exactly the priority order the backtracking engine
explores them (greedy star tries more repetitions first, alternation
tries the left branch first), so `re.match`'s chosen match end is the
head of that list.  The `fuel` argument only bounds star unfoldings;
because a star iteration is only taken when it consumes at least one
character, `s.length + 1` fuel is always enough (proved below).
-/

/-- A regular expression over characters: the empty string, a character
class `[...]` given by its list of characters, concatenation,
alternation (`|`, left branch preferred) and greedy Kleene star. -/
inductive Regex where
  | epsilon : Regex
  | chars (cs : List Char) : Regex
  | concat (a b : Regex) : Regex
  | alt (a b : Regex) : Regex
  | star (r : Regex) : Regex
deriving DecidableEq

/-- `r+`, as used by the repository's `[0-9]+` pattern. -/
def Regex.plus (r : Regex) : Regex := .concat r (.star r)

/-- One layer of the backtracking matcher: given a callback `starEnds`
used for the recursive star unfolding, list the candidate match ends of
a regex on a string in backtracking priority order.  A star iteration is
only attempted when its body consumed at least one character (the filter
below), which is also how Python's engine avoids looping on an empty
repetition. -/
def endsF (starEnds : Regex → Str → List Nat) : Regex → Str → List Nat
  | .epsilon, _ => [0]
  | .chars _, [] => []
  | .chars cs, c :: _ => if c ∈ cs then [1] else []
  | .concat a b, s =>
      (endsF starEnds a s).flatMap (fun n => (endsF starEnds b (s.drop n)).map (n + ·))
  | .alt a b, s => endsF starEnds a s ++ endsF starEnds b s
  | .star r, s =>
      ((endsF starEnds r s).filter (fun n => decide (0 < n ∧ n ≤ s.length))).flatMap
        (fun n => (starEnds (.star r) (s.drop n)).map (n + ·)) ++ [0]

/-- Candidate match ends in backtracking priority order, with `fuel`
bounding the depth of star unfoldings. -/
def ends : Nat → Regex → Str → List Nat
  | 0, _, _ => []
  | fuel + 1, r, s => endsF (ends fuel) r s

/-- Model of `re.compile(p).match(text)`: `some e` is `match.end()` of
the match object when a prefix matches, `none` when `match` returns
`None`.  `s.length + 1` star fuel always suffices (see `ends_stable` /
the adequacy lemmas below). -/
def reMatchEnd (p : Regex) (s : Str) : Option Nat :=
  (ends (s.length + 1) p s).head?

/-- The language of a regex: `Matches p s` holds when the whole string
`s` belongs to the language of `p`. -/
inductive Matches : Regex → Str → Prop where
  | epsilon : Matches .epsilon []
  | chars {c : Char} {cs : List Char} : c ∈ cs → Matches (.chars cs) [c]
  | concat {a b : Regex} {s t : Str} :
      Matches a s → Matches b t → Matches (.concat a b) (s ++ t)
  | altL {a b : Regex} {s : Str} : Matches a s → Matches (.alt a b) s
  | altR {a b : Regex} {s : Str} : Matches b s → Matches (.alt a b) s
  | starNil {r : Regex} : Matches (.star r) []
  | starCons {r : Regex} {s t : Str} :
      Matches r s → Matches (.star r) t → Matches (.star r) (s ++ t)

/-- The ten-character class `[0-9]`. -/
def digitChars : List Char :=
  ['0', '1', '2', '3', '4', '5', '6', '7', '8', '9']

/-- The repository's `RegexParser(r"[0-9]+")` pattern. -/
def digitsPattern : Regex := Regex.plus (.chars digitChars)

example : reMatchEnd digitsPattern ['1', '2', 'a'] = some 2 := rfl
example : reMatchEnd digitsPattern ['a', '1'] = none := rfl
example : reMatchEnd digitsPattern ['1', '2', '3'] = some 3 := rfl

/-!
The parser graph.  Python parser objects live on a heap and refer to
each other by object reference, which is what lets `define` wire
self-referential (cyclic) grammars.  A `Grammar` is that heap: a list of
parser nodes, with a node's children stored as heap addresses.
-/

/-- One parser object: the four concrete classes of `src/parser.py`.
`literalParser` is `LiteralParser(literal)`, `regexParser` is
`RegexParser(pattern)` with the pattern already compiled, and the two
combinator kinds hold their `parsers` tuple as child addresses. -/
inductive Parser where
  | literalParser (literal : Str) : Parser
  | regexParser (pattern : Regex) : Parser
  | sequenceParser (parsers : List Addr) : Parser
  | groupParser (parsers : List Addr) : Parser
deriving DecidableEq

/-- The heap of parser objects; an address is an index into the list. -/
abbrev Grammar := List Parser

/-- `LiteralParser.parse`: fail unless `text` starts with the literal;
in total mode additionally fail unless `text` equals the literal; on
success the payload is the literal itself. -/
def LiteralParser.parse (self : Addr) (literal : Str) (text : Str)
    (partially : Bool) : ParseResult :=
  if ¬ literal.isPrefixOf text then .failed
  else if ¬ partially ∧ text ≠ literal then .failed
  else .strRes self literal

/-- `RegexParser.parse`: anchored match at the start of `text`; in
partial mode return the matched prefix `text[: match.end()]`; in total
mode fail unless `text == text[: match.end()]`, returning `text`. -/
def RegexParser.parse (self : Addr) (pattern : Regex) (text : Str)
    (partially : Bool) : ParseResult :=
  match reMatchEnd pattern text with
  | some e =>
      if partially then .strRes self (text.take e)
      else if text ≠ text.take e then .failed
      else .strRes self text
  | none => .failed

/-- Control flow of the `for` loop of `SequenceParser.parse`:
`failedOut` is the early `return ParseResult.FAILED` taken when a child
fails in total mode; `done results rest` is reaching the code after the
loop (either by exhausting the children or by `break`) with the gathered
child results and the remaining text. -/
inductive SeqStep where
  | failedOut : SeqStep
  | done (results : List ParseResult) (rest : Str) : SeqStep

/-- The loop body of `SequenceParser.parse`: each child is called with
`partially=True`; a failing child either aborts the whole call (total
mode) or breaks out of the loop (partial mode); a succeeding child's
result is recorded and the text advanced by its consumed length.
`rec` is the recursive `parse` call (one fuel level down); `none`
propagates fuel exhaustion. -/
def SequenceParser.loop (rec : Addr → Str → Bool → Option ParseResult)
    (partially : Bool) : List Addr → Str → Option SeqStep
  | [], text => some (.done [] text)
  | p :: ps, text =>
      match rec p text true with
      | none => none
      | some .failed =>
          if ¬ partially then some .failedOut else some (.done [] text)
      | some r =>
          match SequenceParser.loop rec partially ps (text.drop r.length) with
          | none => none
          | some .failedOut => some .failedOut
          | some (.done rs rest) => some (.done (r :: rs) rest)

/-- `SequenceParser.parse`: run the loop; after it, in total mode fail
if any text is left over, otherwise succeed with the gathered results. -/
def SequenceParser.parse (rec : Addr → Str → Bool → Option ParseResult)
    (self : Addr) (parsers : List Addr) (text : Str)
    (partially : Bool) : Option ParseResult :=
  match SequenceParser.loop rec partially parsers text with
  | none => none
  | some .failedOut => some .failed
  | some (.done results rest) =>
      if ¬ partially ∧ 0 < rest.length then some .failed
      else some (.listRes self results)

/-- `GroupParser.parse`: try each child in declaration order with the
same mode the caller requested; return the first non-failing result
verbatim; fail when every child failed. -/
def GroupParser.loop (rec : Addr → Str → Bool → Option ParseResult)
    (text : Str) (partially : Bool) : List Addr → Option ParseResult
  | [] => some .failed
  | p :: ps =>
      match rec p text partially with
      | none => none
      | some .failed => GroupParser.loop rec text partially ps
      | some r => some r

/-- `parse(self, text, partially)` on the heap `g`, with `fuel` bounding
the call-stack depth: `none` means the fuel ran out (or a dangling
address, which a Python object reference cannot produce), `some r` means
the Python call returns `r`. -/
def Parser.parse (g : Grammar) : Nat → Addr → Str → Bool → Option ParseResult
  | 0, _, _, _ => none
  | fuel + 1, self, text, partially =>
      match g[self]? with
      | none => none
      | some (.literalParser lit) =>
          some (LiteralParser.parse self lit text partially)
      | some (.regexParser pat) =>
          some (RegexParser.parse self pat text partially)
      | some (.sequenceParser ps) =>
          SequenceParser.parse (Parser.parse g fuel) self ps text partially
      | some (.groupParser ps) =>
          GroupParser.loop (Parser.parse g fuel) text partially ps

/-!
The grammar of the repository's recursion-termination scenario:
`Expr = Alternative(Sequence(Digits, Literal("+"), Expr), Digits)` with
`Digits = Pattern([0-9]+)`.  Address 0 is `Expr`, address 1 the
sequence, address 2 `Digits`, address 3 the `"+"` literal; the sequence
refers back to address 0, closing the cycle. -/
def exprGrammar : Grammar :=
  [ .groupParser [1, 2],
    .sequenceParser [2, 3, 0],
    .regexParser digitsPattern,
    .literalParser ['+'] ]

example :
    Parser.parse exprGrammar 10 0 ['1', '+', '2', '+', '3'] false =
      some (.listRes 1
        [ .strRes 2 ['1'], .strRes 3 ['+'],
          .listRes 1
            [ .strRes 2 ['2'], .strRes 3 ['+'],
              .listRes 1 [.strRes 2 ['3']] ] ]) := rfl

/-!
Composition: `Parser.__or__` builds a fresh `GroupParser` and `define`s
it; `CombinedParser.define` unwraps a single argument of the same
concrete kind. -/

/-- The child tuple `CombinedParser.define(*parsers)` stores when `self`
is a (freshly constructed) `GroupParser`: a single argument that is
itself a `GroupParser` is unwrapped, adopting its children; any other
argument tuple is stored as given. -/
def GroupParser.defineChildren (g : Grammar) (args : List Addr) : List Addr :=
  match args with
  | [p] =>
      match g[p]? with
      | some (.groupParser ps) => ps
      | _ => args
  | _ => args

/-- `Parser.__or__(self, other)`: splice the children of any operand
that is already a `GroupParser`, allocate a new `GroupParser` on the
heap and `define` it with those arguments.  Returns the extended heap
and the address of the new parser. -/
def Parser.or (g : Grammar) (self other : Addr) : Grammar × Addr :=
  let args : List Addr :=
    match g[self]?, g[other]? with
    | some (.groupParser sp), some (.groupParser op) => sp ++ op
    | some (.groupParser sp), _ => sp ++ [other]
    | _, some (.groupParser op) => [self] ++ op
    | _, _ => [self, other]
  (g ++ [.groupParser (GroupParser.defineChildren g args)], g.length)

/-- Statement vocabulary: `scanAll rec cs text = some (rs, rest)` says
that scanning the children `cs` from `text` exactly as the sequence loop
does (each child called with `partially=True`, the text advanced by the
consumed length) makes every child succeed, gathering the results `rs`
and leaving `rest`. -/
def scanAll (rec : Addr → Str → Bool → Option ParseResult) :
    List Addr → Str → Option (List ParseResult × Str)
  | [], text => some ([], text)
  | p :: ps, text =>
      match rec p text true with
      | none => none
      | some .failed => none
      | some r =>
          match scanAll rec ps (text.drop r.length) with
          | none => none
          | some (rs, rest) => some (r :: rs, rest)

/-! ### Basic lemmas about the engine -/

theorem ParseResult.lengthSum_eq_sum (rs : List ParseResult) :
    ParseResult.lengthSum rs = (rs.map ParseResult.length).sum := by
  induction rs with
  | nil => rfl
  | cons r rs ih => simp [ParseResult.lengthSum, ih]

/-- The sequence loop can only take the early total-mode failure exit
when the overall call is in total mode. -/
theorem SequenceParser.loop_failedOut
    (rec : Addr → Str → Bool → Option ParseResult) (pm : Bool) :
    ∀ (ps : List Addr) (text : Str),
      SequenceParser.loop rec pm ps text = some SeqStep.failedOut → pm = false := by
  intro ps
  induction ps with
  | nil => intro text h; simp [SequenceParser.loop] at h
  | cons p ps ih =>
      intro text h
      rw [SequenceParser.loop] at h
      cases hr : rec p text true with
      | none => rw [hr] at h; exact absurd h (by simp)
      | some r =>
          rw [hr] at h
          cases r with
          | failed =>
              by_cases hpm : pm
              · simp [hpm] at h
              · exact Bool.not_eq_true pm |>.mp hpm
          | strRes a s =>
              simp only at h
              cases hl : SequenceParser.loop rec pm ps (text.drop (ParseResult.strRes a s).length) with
              | none => rw [hl] at h; simp at h
              | some st =>
                  rw [hl] at h
                  cases st with
                  | failedOut => exact ih _ hl
                  | done rs rest => simp at h
          | listRes a rs =>
              simp only at h
              cases hl : SequenceParser.loop rec pm ps (text.drop (ParseResult.listRes a rs).length) with
              | none => rw [hl] at h; simp at h
              | some st =>
                  rw [hl] at h
                  cases st with
                  | failedOut => exact ih _ hl
                  | done rs' rest => simp at h

/-! ### Claim C9 -/

/-- C9: for every `SequenceParser` (any child list, including empty) and
every input text, whenever the partial-mode `parse` call returns a value
at all, that value is a success (a result carrying the sequence parser
and a child-result list), never the failure sentinel: a partial-mode
sequence call cannot fail, even when its very first child fails. -/
theorem sequence_partial_never_fails (g : Grammar) (a : Addr) (cs : List Addr)
    (fuel : Nat) (text : Str) (r : ParseResult)
    (hg : g[a]? = some (.sequenceParser cs))
    (h : Parser.parse g fuel a text true = some r) :
    (∃ rs, r = ParseResult.listRes a rs) ∧ r ≠ ParseResult.FAILED := by
  cases fuel with
  | zero => simp [Parser.parse] at h
  | succ fuel =>
      rw [Parser.parse, hg] at h
      unfold SequenceParser.parse at h
      simp only at h
      cases hl : SequenceParser.loop (Parser.parse g fuel) true cs text with
      | none => rw [hl] at h; simp at h
      | some st =>
          rw [hl] at h
          cases st with
          | failedOut => exact absurd (SequenceParser.loop_failedOut _ _ _ _ hl) (by simp)
          | done rs rest =>
              simp only [not_true, false_and, if_neg, ite_false] at h
              obtain rfl : ParseResult.listRes a rs = r := Option.some.inj h
              exact ⟨⟨rs, rfl⟩, by simp [ParseResult.FAILED]⟩

/-- C9 witness: an undefined sequence's first (non-existent) child never
fires; concretely, a partial-mode call on a one-child sequence whose
child fails still returns a success. -/
theorem sequence_partial_never_fails_witness :
    (∃ rs, ParseResult.listRes 1 [] = ParseResult.listRes 1 rs) ∧
      ParseResult.listRes 1 [] ≠ ParseResult.FAILED :=
  sequence_partial_never_fails [.literalParser ['a'], .sequenceParser [0]] 1 [0] 2
    ['b'] (ParseResult.listRes 1 []) rfl rfl

/-! ### Claim C10 -/

/-- C10: a combinator whose `define` was never called keeps the empty
child tuple `CombinedParser.__init__` installed, and parsing it returns
a value (no exception): an undefined `GroupParser` fails on every text
in every mode, and an undefined `SequenceParser` succeeds with an empty
child list in partial mode and, in total mode, succeeds exactly on the
empty text and fails otherwise. -/
theorem undefined_combinator_parse (g : Grammar) (a : Addr) (fuel : Nat)
    (text : Str) :
    (g[a]? = some (.groupParser []) →
      ∀ pm, Parser.parse g (fuel + 1) a text pm = some ParseResult.FAILED) ∧
    (g[a]? = some (.sequenceParser []) →
      Parser.parse g (fuel + 1) a text true = some (.listRes a []) ∧
      Parser.parse g (fuel + 1) a text false =
        (if text = [] then some (.listRes a []) else some ParseResult.FAILED)) := by
  constructor
  · intro hg pm
    rw [Parser.parse, hg]
    simp [GroupParser.loop, ParseResult.FAILED]
  · intro hg
    constructor
    · rw [Parser.parse, hg]
      unfold SequenceParser.parse
      simp [SequenceParser.loop]
    · rw [Parser.parse, hg]
      unfold SequenceParser.parse
      cases text with
      | nil => simp [SequenceParser.loop]
      | cons c t => simp [SequenceParser.loop, ParseResult.FAILED]

/-- C10 witness: both parts at a concrete grammar holding an undefined
group at address 0 and an undefined sequence at address 1, on a
non-empty text. -/
theorem undefined_combinator_parse_witness :
    ((([Parser.groupParser [], Parser.sequenceParser []] : Grammar)[0]? =
        some (.groupParser []) →
      ∀ pm, Parser.parse [Parser.groupParser [], Parser.sequenceParser []] 1 0
          ['x'] pm = some ParseResult.FAILED) ∧
    (([Parser.groupParser [], Parser.sequenceParser []] : Grammar)[0]? =
        some (.sequenceParser []) →
      Parser.parse [Parser.groupParser [], Parser.sequenceParser []] 1 0 ['x']
          true = some (.listRes 0 []) ∧
      Parser.parse [Parser.groupParser [], Parser.sequenceParser []] 1 0 ['x']
          false =
        (if (['x'] : Str) = [] then some (.listRes 0 [])
         else some ParseResult.FAILED))) ∧
    ((([Parser.groupParser [], Parser.sequenceParser []] : Grammar)[1]? =
        some (.groupParser []) →
      ∀ pm, Parser.parse [Parser.groupParser [], Parser.sequenceParser []] 1 1
          ['x'] pm = some ParseResult.FAILED) ∧
    (([Parser.groupParser [], Parser.sequenceParser []] : Grammar)[1]? =
        some (.sequenceParser []) →
      Parser.parse [Parser.groupParser [], Parser.sequenceParser []] 1 1 ['x']
          true = some (.listRes 1 []) ∧
      Parser.parse [Parser.groupParser [], Parser.sequenceParser []] 1 1 ['x']
          false =
        (if (['x'] : Str) = [] then some (.listRes 1 [])
         else some ParseResult.FAILED))) :=
  ⟨undefined_combinator_parse [Parser.groupParser [], Parser.sequenceParser []]
      0 0 ['x'],
   undefined_combinator_parse [Parser.groupParser [], Parser.sequenceParser []]
      1 0 ['x']⟩

/-! ### Claim C8 -/

/-- C8: every parse call, for every parser kind, text and mode, that
produces a failing result produces the one shared sentinel
`ParseResult.FAILED`; that sentinel has `length` zero and carries no
parser and no payload (it is distinct from every success value). -/
theorem failure_sentinel (g : Grammar) (fuel : Nat) (a : Addr) (text : Str)
    (pm : Bool) (r : ParseResult)
    (h : Parser.parse g fuel a text pm = some r) :
    (r.isFailure = true → r = ParseResult.FAILED) ∧
    ParseResult.FAILED.length = 0 ∧
    (∀ p s, ParseResult.FAILED ≠ ParseResult.strRes p s) ∧
    (∀ p rs, ParseResult.FAILED ≠ ParseResult.listRes p rs) := by
  refine ⟨?_, rfl, ?_, ?_⟩
  · cases r with
    | failed => intro _; rfl
    | strRes p s => intro hc; simp [ParseResult.isFailure] at hc
    | listRes p rs => intro hc; simp [ParseResult.isFailure] at hc
  · intro p s hc; exact ParseResult.noConfusion hc
  · intro p rs hc; exact ParseResult.noConfusion hc

/-- C8 witness: a failing literal parse (total mode on a mismatching
text) satisfies all four parts. -/
theorem failure_sentinel_witness :
    ((ParseResult.FAILED.isFailure = true →
        ParseResult.FAILED = ParseResult.FAILED) ∧
    ParseResult.FAILED.length = 0 ∧
    (∀ p s, ParseResult.FAILED ≠ ParseResult.strRes p s) ∧
    (∀ p rs, ParseResult.FAILED ≠ ParseResult.listRes p rs)) :=
  failure_sentinel [Parser.literalParser ['a']] 1 0 ['b'] false
    ParseResult.FAILED rfl

/-! ### Claim C7 -/

/-- C7: `Literal(s).parse(s)` in total mode succeeds with length
`len(s)`; for every non-empty suffix `t`, total-mode parsing of `s ++ t`
returns the failure sentinel while partial-mode parsing succeeds with
length `len(s)`; and on any success, in either mode on any text, the
payload is the literal `s` itself. -/
theorem literal_exactness (g : Grammar) (a : Addr) (s t : Str) (fuel : Nat)
    (hg : g[a]? = some (.literalParser s)) (ht : t ≠ []) :
    (Parser.parse g (fuel + 1) a s false = some (.strRes a s) ∧
      (ParseResult.strRes a s).length = s.length) ∧
    Parser.parse g (fuel + 1) a (s ++ t) false = some ParseResult.FAILED ∧
    Parser.parse g (fuel + 1) a (s ++ t) true = some (.strRes a s) ∧
    (∀ (text : Str) (pm : Bool) (r : ParseResult),
      Parser.parse g (fuel + 1) a text pm = some r →
      r = ParseResult.FAILED ∨ r = .strRes a s) := by
  have hne : s ++ t ≠ s := by
    intro hc
    have := congrArg List.length hc
    simp at this
    exact ht this
  refine ⟨⟨?_, rfl⟩, ?_, ?_, ?_⟩
  · rw [Parser.parse, hg]
    simp [LiteralParser.parse, List.prefix_refl]
  · rw [Parser.parse, hg]
    simp [LiteralParser.parse, ParseResult.FAILED, hne]
  · rw [Parser.parse, hg]
    simp [LiteralParser.parse]
  · intro text pm r h
    rw [Parser.parse, hg] at h
    simp only [LiteralParser.parse] at h
    by_cases h1 : s.isPrefixOf text
    · rw [if_neg (by simp [h1])] at h
      by_cases h2 : ¬ pm = true ∧ text ≠ s
      · rw [if_pos h2] at h
        exact Or.inl (Option.some.inj h).symm
      · rw [if_neg h2] at h
        exact Or.inr (Option.some.inj h).symm
    · rw [if_pos (by simp [h1])] at h
      exact Or.inl (Option.some.inj h).symm

/-- C7 witness: the literal `"ab"` with the non-empty suffix `"c"`. -/
theorem literal_exactness_witness :
    (Parser.parse [Parser.literalParser ['a', 'b']] 1 0 ['a', 'b'] false =
        some (.strRes 0 ['a', 'b']) ∧
      (ParseResult.strRes 0 ['a', 'b']).length = (['a', 'b'] : Str).length) ∧
    Parser.parse [Parser.literalParser ['a', 'b']] 1 0 (['a', 'b'] ++ ['c'])
        false = some ParseResult.FAILED ∧
    Parser.parse [Parser.literalParser ['a', 'b']] 1 0 (['a', 'b'] ++ ['c'])
        true = some (.strRes 0 ['a', 'b']) ∧
    (∀ (text : Str) (pm : Bool) (r : ParseResult),
      Parser.parse [Parser.literalParser ['a', 'b']] 1 0 text pm = some r →
      r = ParseResult.FAILED ∨ r = .strRes 0 ['a', 'b']) :=
  literal_exactness [Parser.literalParser ['a', 'b']] 0 ['a', 'b'] ['c'] 0 rfl
    (by simp)

/-! ### Claim C1 -/

/-- C1: the `length` of a `ParseResult` is the number of characters of
the consumed substring for a leaf success, the sum of the children's
lengths for a combinator success (`0` for an empty child list), and `0`
for the failure sentinel.  (The combinator branch is the spec-mandated
behaviour; in `src/parser.py` that branch raises `NotImplementedError`.) -/
theorem parse_result_length (p : Addr) (s : Str) (rs : List ParseResult) :
    ParseResult.FAILED.length = 0 ∧
    (ParseResult.strRes p s).length = s.length ∧
    (ParseResult.listRes p rs).length = (rs.map ParseResult.length).sum ∧
    (ParseResult.listRes p []).length = 0 :=
  ⟨rfl, rfl, ParseResult.lengthSum_eq_sum rs, rfl⟩

/-! ### Claim C2 -/

/-- C2: the self-referential grammar
`Expr = Alternative(Sequence(Digits, Literal("+"), Expr), Digits)` with
`Digits = Pattern([0-9]+)`, run in total mode on `"1+2+3"`, terminates
(here: already within call depth 10) and returns a success consuming the
whole five-character string: the result is the full nested parse tree
and its total consumed length is 5. -/
theorem recursion_termination_scenario :
    Parser.parse exprGrammar 10 0 ['1', '+', '2', '+', '3'] false =
      some (.listRes 1
        [ .strRes 2 ['1'], .strRes 3 ['+'],
          .listRes 1
            [ .strRes 2 ['2'], .strRes 3 ['+'],
              .listRes 1 [.strRes 2 ['3']] ] ]) ∧
    (ParseResult.listRes 1
        [ .strRes 2 ['1'], .strRes 3 ['+'],
          .listRes 1
            [ .strRes 2 ['2'], .strRes 3 ['+'],
              .listRes 1 [.strRes 2 ['3']] ] ]).length = 5 ∧
    (ParseResult.listRes 1
        [ .strRes 2 ['1'], .strRes 3 ['+'],
          .listRes 1
            [ .strRes 2 ['2'], .strRes 3 ['+'],
              .listRes 1 [.strRes 2 ['3']] ] ]) ≠ ParseResult.FAILED ∧
    (['1', '+', '2', '+', '3'] : Str).length = 5 :=
  ⟨rfl, rfl, by simp [ParseResult.FAILED], rfl⟩

/-! ### Claim C3 -/

/-- If every child in `cs1` succeeds (gathering `rs` and leaving `rest`)
and the next child `pk` fails on `rest`, the sequence loop takes the
early total-mode exit when the overall call is total, and breaks with
the results gathered so far when the overall call is partial. -/
theorem SequenceParser.loop_of_scanAll
    (rec : Addr → Str → Bool → Option ParseResult) (pm : Bool) (pk : Addr)
    (cs2 : List Addr) :
    ∀ (cs1 : List Addr) (text rest : Str) (rs : List ParseResult),
      scanAll rec cs1 text = some (rs, rest) →
      rec pk rest true = some ParseResult.failed →
      SequenceParser.loop rec pm (cs1 ++ pk :: cs2) text =
        (if ¬ pm then some SeqStep.failedOut else some (.done rs rest)) := by
  intro cs1
  induction cs1 with
  | nil =>
      intro text rest rs hscan hfail
      rw [scanAll] at hscan
      obtain ⟨rfl, rfl⟩ : rs = [] ∧ text = rest := by
        constructor <;> [exact (Prod.mk.inj (Option.some.inj hscan)).1.symm;
          exact (Prod.mk.inj (Option.some.inj hscan)).2]
      rw [List.nil_append, SequenceParser.loop, hfail]
  | cons c cs1 ih =>
      intro text rest rs hscan hfail
      rw [scanAll] at hscan
      cases hr : rec c text true with
      | none => rw [hr] at hscan; simp at hscan
      | some r =>
          rw [hr] at hscan
          cases r with
          | failed => simp at hscan
          | strRes pa ps =>
              simp only at hscan
              cases hs : scanAll rec cs1 (text.drop (ParseResult.strRes pa ps).length) with
              | none => rw [hs] at hscan; simp at hscan
              | some pr =>
                  obtain ⟨rs', rest'⟩ := pr
                  rw [hs] at hscan
                  simp only [Option.some.injEq, Prod.mk.injEq] at hscan
                  obtain ⟨rfl, rfl⟩ := hscan
                  rw [List.cons_append, SequenceParser.loop, hr]
                  simp only
                  rw [ih _ _ _ hs hfail]
                  cases pm <;> simp
          | listRes pa prs =>
              simp only at hscan
              cases hs : scanAll rec cs1 (text.drop (ParseResult.listRes pa prs).length) with
              | none => rw [hs] at hscan; simp at hscan
              | some pr =>
                  obtain ⟨rs', rest'⟩ := pr
                  rw [hs] at hscan
                  simp only [Option.some.injEq, Prod.mk.injEq] at hscan
                  obtain ⟨rfl, rfl⟩ := hscan
                  rw [List.cons_append, SequenceParser.loop, hr]
                  simp only
                  rw [ih _ _ _ hs hfail]
                  cases pm <;> simp

/-- C3: for a `SequenceParser` whose children are `cs1 ++ pk :: cs2`,
if every child in `cs1` succeeds during the left-to-right scan
(gathering `rs` and leaving `rest`) and `pk` is the first child to fail,
then the partial-mode call returns a success whose payload is exactly
the results `rs` gathered before `pk`, while the total-mode call on the
same inputs returns the failure sentinel. -/
theorem sequence_early_stop (g : Grammar) (a : Addr) (cs1 : List Addr)
    (pk : Addr) (cs2 : List Addr) (fuel : Nat) (text rest : Str)
    (rs : List ParseResult)
    (hg : g[a]? = some (.sequenceParser (cs1 ++ pk :: cs2)))
    (hscan : scanAll (Parser.parse g fuel) cs1 text = some (rs, rest))
    (hfail : Parser.parse g fuel pk rest true = some ParseResult.FAILED) :
    Parser.parse g (fuel + 1) a text true = some (.listRes a rs) ∧
    Parser.parse g (fuel + 1) a text false = some ParseResult.FAILED := by
  have hloop := fun pm =>
    SequenceParser.loop_of_scanAll (Parser.parse g fuel) pm pk cs2 cs1 text
      rest rs hscan hfail
  constructor
  · rw [Parser.parse, hg]
    unfold SequenceParser.parse
    simp only [hloop true, not_true, if_neg, ite_false]
    simp
  · rw [Parser.parse, hg]
    unfold SequenceParser.parse
    simp only [hloop false]
    simp [ParseResult.FAILED]

/-- C3 witness: the sequence `[Literal("a"), Literal("b")]` on `"ax"`:
the first child succeeds consuming `"a"`, the second is the first to
fail; the partial call returns the success `["a"]`, the total call the
sentinel. -/
theorem sequence_early_stop_witness :
    Parser.parse [Parser.literalParser ['a'], Parser.literalParser ['b'],
        Parser.sequenceParser [0, 1]] 2 2 ['a', 'x'] true =
      some (.listRes 2 [.strRes 0 ['a']]) ∧
    Parser.parse [Parser.literalParser ['a'], Parser.literalParser ['b'],
        Parser.sequenceParser [0, 1]] 2 2 ['a', 'x'] false =
      some ParseResult.FAILED :=
  sequence_early_stop [Parser.literalParser ['a'], Parser.literalParser ['b'],
      Parser.sequenceParser [0, 1]] 2 [0] 1 [] 1 ['a', 'x'] ['x']
    [.strRes 0 ['a']] rfl rfl rfl

/-! ### Claim C4 -/

/-- If every child before `ck` fails and `ck` returns the non-failing
result `r`, the group loop returns `r` itself. -/
theorem GroupParser.loop_first
    (rec : Addr → Str → Bool → Option ParseResult) (text : Str) (pm : Bool)
    (ck : Addr) (cs2 : List Addr) (r : ParseResult) :
    ∀ cs1 : List Addr,
      (∀ c ∈ cs1, rec c text pm = some ParseResult.failed) →
      rec ck text pm = some r → r ≠ ParseResult.failed →
      GroupParser.loop rec text pm (cs1 ++ ck :: cs2) = some r := by
  intro cs1
  induction cs1 with
  | nil =>
      intro _ hk hr
      rw [List.nil_append, GroupParser.loop, hk]
      cases r with
      | failed => exact absurd rfl hr
      | strRes pa ps => rfl
      | listRes pa prs => rfl
  | cons c cs1 ih =>
      intro hall hk hr
      rw [List.cons_append, GroupParser.loop, hall c (List.mem_cons_self c cs1)]
      exact ih (fun c' hc' => hall c' (List.mem_cons_of_mem c hc')) hk hr

/-- If every child fails, the group loop fails. -/
theorem GroupParser.loop_all_failed
    (rec : Addr → Str → Bool → Option ParseResult) (text : Str) (pm : Bool) :
    ∀ cs : List Addr,
      (∀ c ∈ cs, rec c text pm = some ParseResult.failed) →
      GroupParser.loop rec text pm cs = some ParseResult.failed := by
  intro cs
  induction cs with
  | nil => intro _; rfl
  | cons c cs ih =>
      intro hall
      rw [GroupParser.loop, hall c (List.mem_cons_self c cs)]
      exact ih fun c' hc' => hall c' (List.mem_cons_of_mem c hc')

/-- If the group loop fails, every child was called and failed. -/
theorem GroupParser.loop_failed_forall
    (rec : Addr → Str → Bool → Option ParseResult) (text : Str) (pm : Bool) :
    ∀ cs : List Addr,
      GroupParser.loop rec text pm cs = some ParseResult.failed →
      ∀ c ∈ cs, rec c text pm = some ParseResult.failed := by
  intro cs
  induction cs with
  | nil => intro _ c hc; exact absurd hc (List.not_mem_nil c)
  | cons c cs ih =>
      intro h c' hc'
      rw [GroupParser.loop] at h
      cases hr : rec c text pm with
      | none => rw [hr] at h; simp at h
      | some r =>
          rw [hr] at h
          cases r with
          | failed =>
              rcases List.mem_cons.mp hc' with hceq | hmem
              · rw [hceq]; exact hr
              · exact ih h c' hmem
          | strRes pa ps => simp only at h; simp at h
          | listRes pa prs => simp only at h; simp at h

/-- C4: an `AlternativeParser` (`GroupParser`) tries its children in
declaration order, passing each child the same mode flag the caller
supplied, and returns the first child's successful result verbatim —
the child's own `ParseResult`, with its own parser reference and
payload, not wrapped by the alternative; it returns the failure sentinel
iff every child fails.  In particular, when an earlier child `ck` and
any later child can both match, the result is the one `ck` produces. -/
theorem alternative_first_match (g : Grammar) (a : Addr) (cs : List Addr)
    (fuel : Nat) (text : Str) (pm : Bool)
    (hg : g[a]? = some (.groupParser cs)) :
    (∀ (cs1 : List Addr) (ck : Addr) (cs2 : List Addr) (r : ParseResult),
      cs = cs1 ++ ck :: cs2 →
      (∀ c ∈ cs1, Parser.parse g fuel c text pm = some ParseResult.FAILED) →
      Parser.parse g fuel ck text pm = some r → r ≠ ParseResult.FAILED →
      Parser.parse g (fuel + 1) a text pm = some r) ∧
    ((∀ c ∈ cs, Parser.parse g fuel c text pm = some ParseResult.FAILED) →
      Parser.parse g (fuel + 1) a text pm = some ParseResult.FAILED) ∧
    (Parser.parse g (fuel + 1) a text pm = some ParseResult.FAILED →
      ∀ c ∈ cs, Parser.parse g fuel c text pm = some ParseResult.FAILED) := by
  refine ⟨?_, ?_, ?_⟩
  · intro cs1 ck cs2 r hcs hall hk hr
    rw [Parser.parse, hg]
    simp only
    rw [hcs]
    exact GroupParser.loop_first (Parser.parse g fuel) text pm ck cs2 r cs1
      hall hk hr
  · intro hall
    rw [Parser.parse, hg]
    simp only
    exact GroupParser.loop_all_failed (Parser.parse g fuel) text pm cs hall
  · intro h
    rw [Parser.parse, hg] at h
    simp only at h
    exact GroupParser.loop_failed_forall (Parser.parse g fuel) text pm cs h

/-- C4 witness: `Alternative(Literal("ab"), Literal("a"))` on `"ab"` in
partial mode: both children can match, the first child's result is
returned verbatim (carrying the first child's own address and payload). -/
theorem alternative_first_match_witness :
    ((∀ (cs1 : List Addr) (ck : Addr) (cs2 : List Addr) (r : ParseResult),
      ([0, 1] : List Addr) = cs1 ++ ck :: cs2 →
      (∀ c ∈ cs1, Parser.parse [Parser.literalParser ['a', 'b'],
          Parser.literalParser ['a'], Parser.groupParser [0, 1]] 1 c
          ['a', 'b'] true = some ParseResult.FAILED) →
      Parser.parse [Parser.literalParser ['a', 'b'],
          Parser.literalParser ['a'], Parser.groupParser [0, 1]] 1 ck
          ['a', 'b'] true = some r → r ≠ ParseResult.FAILED →
      Parser.parse [Parser.literalParser ['a', 'b'],
          Parser.literalParser ['a'], Parser.groupParser [0, 1]] 2 2
          ['a', 'b'] true = some r) ∧
    ((∀ c ∈ ([0, 1] : List Addr), Parser.parse [Parser.literalParser ['a', 'b'],
          Parser.literalParser ['a'], Parser.groupParser [0, 1]] 1 c
          ['a', 'b'] true = some ParseResult.FAILED) →
      Parser.parse [Parser.literalParser ['a', 'b'],
          Parser.literalParser ['a'], Parser.groupParser [0, 1]] 2 2
          ['a', 'b'] true = some ParseResult.FAILED) ∧
    (Parser.parse [Parser.literalParser ['a', 'b'],
          Parser.literalParser ['a'], Parser.groupParser [0, 1]] 2 2
          ['a', 'b'] true = some ParseResult.FAILED →
      ∀ c ∈ ([0, 1] : List Addr), Parser.parse [Parser.literalParser ['a', 'b'],
          Parser.literalParser ['a'], Parser.groupParser [0, 1]] 1 c
          ['a', 'b'] true = some ParseResult.FAILED)) ∧
    Parser.parse [Parser.literalParser ['a', 'b'], Parser.literalParser ['a'],
        Parser.groupParser [0, 1]] 2 2 ['a', 'b'] true =
      some (.strRes 0 ['a', 'b']) :=
  ⟨alternative_first_match [Parser.literalParser ['a', 'b'],
      Parser.literalParser ['a'], Parser.groupParser [0, 1]] 2 [0, 1] 1
      ['a', 'b'] true rfl,
   (alternative_first_match [Parser.literalParser ['a', 'b'],
      Parser.literalParser ['a'], Parser.groupParser [0, 1]] 2 [0, 1] 1
      ['a', 'b'] true rfl).1 [] 0 [1] (.strRes 0 ['a', 'b']) rfl
      (fun c hc => absurd hc (List.not_mem_nil c)) rfl
      (by simp [ParseResult.FAILED])⟩

/-! ### Claim C5 -/

/-- Does the optional heap node exist and hold a `GroupParser`? -/
def isGroupNode : Option Parser → Bool
  | some (.groupParser _) => true
  | _ => false

/-- `p | q` for two operands neither of which is a `GroupParser`:
a fresh two-child group is allocated (and `define` does not unwrap a
two-element tuple). -/
theorem Parser.or_of_not_group (g : Grammar) (p q : Addr)
    (hp : (g[p]?).isSome) (hq : (g[q]?).isSome)
    (hnp : isGroupNode g[p]? = false) (hnq : isGroupNode g[q]? = false) :
    Parser.or g p q = (g ++ [.groupParser [p, q]], g.length) := by
  obtain ⟨np, hp'⟩ := Option.isSome_iff_exists.mp hp
  obtain ⟨nq, hq'⟩ := Option.isSome_iff_exists.mp hq
  rw [hp'] at hnp
  rw [hq'] at hnq
  unfold Parser.or
  rw [hp', hq']
  cases np <;> cases nq <;>
    first
      | exact Bool.noConfusion hnp
      | exact Bool.noConfusion hnq
      | rfl

/-- C5: for parsers `P1, P2, P3` none of which is itself an
`AlternativeParser` (`GroupParser`), both `(P1 | P2) | P3` and
`P1 | (P2 | P3)` produce a `GroupParser` whose child list is exactly
`[P1, P2, P3]` in that order, with no nested single-child alternative. -/
theorem or_flattening (g : Grammar) (p1 p2 p3 : Addr)
    (h1 : (g[p1]?).isSome) (h2 : (g[p2]?).isSome) (h3 : (g[p3]?).isSome)
    (hn1 : isGroupNode g[p1]? = false) (hn2 : isGroupNode g[p2]? = false)
    (hn3 : isGroupNode g[p3]? = false) :
    (let L1 := Parser.or g p1 p2
     let L2 := Parser.or L1.1 L1.2 p3
     L2.1[L2.2]? = some (.groupParser [p1, p2, p3])) ∧
    (let R1 := Parser.or g p2 p3
     let R2 := Parser.or R1.1 p1 R1.2
     R2.1[R2.2]? = some (.groupParser [p1, p2, p3])) := by
  have hlt1 : p1 < g.length := by
    obtain ⟨n, hn⟩ := Option.isSome_iff_exists.mp h1
    exact (List.getElem?_eq_some.mp hn).1
  have hlt3 : p3 < g.length := by
    obtain ⟨n, hn⟩ := Option.isSome_iff_exists.mp h3
    exact (List.getElem?_eq_some.mp hn).1
  constructor
  · rw [Parser.or_of_not_group g p1 p2 h1 h2 hn1 hn2]
    simp only
    obtain ⟨n3, hn3'⟩ := Option.isSome_iff_exists.mp h3
    have e3 : (g ++ [Parser.groupParser [p1, p2]])[p3]? = some n3 := by
      rw [List.getElem?_append_left hlt3, hn3']
    have eg : (g ++ [Parser.groupParser [p1, p2]])[g.length]? =
        some (Parser.groupParser [p1, p2]) :=
      List.getElem?_concat_length g (Parser.groupParser [p1, p2])
    unfold Parser.or
    rw [eg, e3]
    rw [hn3'] at hn3
    cases n3 with
    | groupParser ps => exact Bool.noConfusion hn3
    | literalParser lit => rw [List.getElem?_concat_length]; rfl
    | regexParser pat => rw [List.getElem?_concat_length]; rfl
    | sequenceParser ps => rw [List.getElem?_concat_length]; rfl
  · rw [Parser.or_of_not_group g p2 p3 h2 h3 hn2 hn3]
    simp only
    obtain ⟨n1, hn1'⟩ := Option.isSome_iff_exists.mp h1
    have e1 : (g ++ [Parser.groupParser [p2, p3]])[p1]? = some n1 := by
      rw [List.getElem?_append_left hlt1, hn1']
    have eg : (g ++ [Parser.groupParser [p2, p3]])[g.length]? =
        some (Parser.groupParser [p2, p3]) :=
      List.getElem?_concat_length g (Parser.groupParser [p2, p3])
    unfold Parser.or
    rw [e1, eg]
    rw [hn1'] at hn1
    cases n1 with
    | groupParser ps => exact Bool.noConfusion hn1
    | literalParser lit => rw [List.getElem?_concat_length]; rfl
    | regexParser pat => rw [List.getElem?_concat_length]; rfl
    | sequenceParser ps => rw [List.getElem?_concat_length]; rfl

/-- C5 witness: three literal parsers on a three-node heap. -/
theorem or_flattening_witness :
    (let L1 := Parser.or [Parser.literalParser ['a'], Parser.literalParser ['b'],
        Parser.literalParser ['c']] 0 1
     let L2 := Parser.or L1.1 L1.2 2
     L2.1[L2.2]? = some (.groupParser [0, 1, 2])) ∧
    (let R1 := Parser.or [Parser.literalParser ['a'], Parser.literalParser ['b'],
        Parser.literalParser ['c']] 1 2
     let R2 := Parser.or R1.1 0 R1.2
     R2.1[R2.2]? = some (.groupParser [0, 1, 2])) :=
  or_flattening [Parser.literalParser ['a'], Parser.literalParser ['b'],
      Parser.literalParser ['c']] 0 1 2 rfl rfl rfl rfl rfl rfl

/-! ### Claim C6: correctness of the regex matcher -/

theorem ends_succ (fuel : Nat) (r : Regex) (s : Str) :
    ends (fuel + 1) r s = endsF (ends fuel) r s := rfl

/-- Soundness of one matcher layer: every candidate end is at most the
string length and the corresponding prefix belongs to the regex's
language, provided the star callback is sound on strictly shorter
strings. -/
theorem endsF_sound (fuel : Nat) (starEnds : Regex → Str → List Nat)
    (hcb : ∀ (q : Regex) (s' : Str) (n : Nat), s'.length < fuel →
      n ∈ starEnds q s' → n ≤ s'.length ∧ Matches q (s'.take n)) :
    ∀ (p : Regex) (s : Str) (n : Nat), s.length ≤ fuel →
      n ∈ endsF starEnds p s → n ≤ s.length ∧ Matches p (s.take n) := by
  intro p
  induction p with
  | epsilon =>
      intro s n _ hm
      rw [endsF] at hm
      obtain rfl : n = 0 := List.mem_singleton.mp hm
      exact ⟨Nat.zero_le _, by simpa using Matches.epsilon⟩
  | chars cs =>
      intro s n _ hm
      cases s with
      | nil => rw [endsF] at hm; exact absurd hm (List.not_mem_nil n)
      | cons c s' =>
          rw [endsF] at hm
          by_cases hc : c ∈ cs
          · rw [if_pos hc] at hm
            obtain rfl : n = 1 := List.mem_singleton.mp hm
            exact ⟨by simp, by simpa using Matches.chars hc⟩
          · rw [if_neg hc] at hm
            exact absurd hm (List.not_mem_nil n)
  | concat a b iha ihb =>
      intro s n hs hm
      rw [endsF] at hm
      obtain ⟨n1, hn1, hn2'⟩ := List.mem_flatMap.mp hm
      obtain ⟨n2, hn2, rfl⟩ := List.mem_map.mp hn2'
      obtain ⟨hn1le, hma⟩ := iha s n1 hs hn1
      obtain ⟨hn2le, hmb⟩ := ihb (s.drop n1) n2
        (le_trans (by simp) hs) hn2
      refine ⟨by simp at hn2le; omega, ?_⟩
      rw [List.take_add]
      exact Matches.concat hma hmb
  | alt a b iha ihb =>
      intro s n hs hm
      rw [endsF] at hm
      rcases List.mem_append.mp hm with h | h
      · obtain ⟨hle, hma⟩ := iha s n hs h
        exact ⟨hle, Matches.altL hma⟩
      · obtain ⟨hle, hmb⟩ := ihb s n hs h
        exact ⟨hle, Matches.altR hmb⟩
  | star r ihr =>
      intro s n hs hm
      rw [endsF] at hm
      rcases List.mem_append.mp hm with h | h
      · obtain ⟨n1, hn1, hn2'⟩ := List.mem_flatMap.mp h
        obtain ⟨n2, hn2, rfl⟩ := List.mem_map.mp hn2'
        obtain ⟨hn1mem, hn1p⟩ := List.mem_filter.mp hn1
        obtain ⟨hn1pos, hn1le⟩ := of_decide_eq_true hn1p
        obtain ⟨_, hmr⟩ := ihr s n1 hs hn1mem
        have hstar := hcb (.star r) (s.drop n1) n2 (by simp; omega) hn2
        refine ⟨by obtain ⟨h2le, _⟩ := hstar; simp at h2le; omega, ?_⟩
        rw [List.take_add]
        exact Matches.starCons hmr hstar.2
      · obtain rfl : n = 0 := List.mem_singleton.mp h
        exact ⟨Nat.zero_le _, by simpa using Matches.starNil⟩

/-- Soundness of the matcher: with adequate fuel, every candidate match
end is within the string and its prefix belongs to the language. -/
theorem ends_sound : ∀ (fuel : Nat) (p : Regex) (s : Str) (n : Nat),
    s.length < fuel → n ∈ ends fuel p s →
    n ≤ s.length ∧ Matches p (s.take n) := by
  intro fuel
  induction fuel with
  | zero => intro p s n h _; exact absurd h (Nat.not_lt_zero _)
  | succ fuel ihf =>
      intro p s n h hm
      exact endsF_sound fuel (ends fuel) (fun q s' n' h' hm' => ihf q s' n' h' hm')
        p s n (Nat.lt_succ_iff.mp h) hm

/-- Completeness of the matcher: with adequate fuel, every prefix of `s`
in the language of `p` contributes its length to the candidate list. -/
theorem ends_complete {p : Regex} {t : Str} (hm : Matches p t) :
    ∀ (s : Str) (fuel : Nat), t <+: s → s.length < fuel →
      t.length ∈ ends fuel p s := by
  induction hm with
  | epsilon =>
      intro s fuel _ hlen
      cases fuel with
      | zero => exact absurd hlen (Nat.not_lt_zero _)
      | succ fuel => simp [ends_succ, endsF]
  | @chars c cs hc =>
      intro s fuel hpre hlen
      cases fuel with
      | zero => exact absurd hlen (Nat.not_lt_zero _)
      | succ fuel =>
          obtain ⟨u, hu⟩ := hpre
          subst hu
          simp [ends_succ, endsF, hc, List.singleton_append]
  | @concat a b t1 t2 hma hmb iha ihb =>
      intro s fuel hpre hlen
      cases fuel with
      | zero => exact absurd hlen (Nat.not_lt_zero _)
      | succ fuel =>
          have hpre1 : t1 <+: s := (List.prefix_append t1 t2).trans hpre
          obtain ⟨u, hu⟩ := hpre
          have hdrop : s.drop t1.length = t2 ++ u := by
            rw [← hu, List.append_assoc, List.drop_left]
          have h1 : t1.length ∈ ends (fuel + 1) a s := iha s (fuel + 1) hpre1 hlen
          have h2 : t2.length ∈ ends (fuel + 1) b (s.drop t1.length) := by
            apply ihb
            · rw [hdrop]; exact List.prefix_append t2 u
            · simp only [List.length_drop]; omega
          rw [ends_succ, endsF]
          refine List.mem_flatMap.mpr ⟨t1.length, h1, ?_⟩
          exact List.mem_map.mpr ⟨t2.length, h2, by simp [List.length_append]⟩
  | @altL a b t1 hma iha =>
      intro s fuel hpre hlen
      cases fuel with
      | zero => exact absurd hlen (Nat.not_lt_zero _)
      | succ fuel =>
          rw [ends_succ, endsF]
          exact List.mem_append.mpr (Or.inl (iha s (fuel + 1) hpre hlen))
  | @altR a b t1 hmb ihb =>
      intro s fuel hpre hlen
      cases fuel with
      | zero => exact absurd hlen (Nat.not_lt_zero _)
      | succ fuel =>
          rw [ends_succ, endsF]
          exact List.mem_append.mpr (Or.inr (ihb s (fuel + 1) hpre hlen))
  | @starNil r =>
      intro s fuel _ hlen
      cases fuel with
      | zero => exact absurd hlen (Nat.not_lt_zero _)
      | succ fuel => simp [ends_succ, endsF]
  | @starCons r t1 t2 hma hmstar iha ihstar =>
      intro s fuel hpre hlen
      by_cases h1 : t1 = []
      · subst h1
        simpa using ihstar s fuel (by simpa using hpre) hlen
      · cases fuel with
        | zero => exact absurd hlen (Nat.not_lt_zero _)
        | succ fuel =>
            have hpre1 : t1 <+: s := (List.prefix_append t1 t2).trans hpre
            obtain ⟨u, hu⟩ := hpre
            have hdrop : s.drop t1.length = t2 ++ u := by
              rw [← hu, List.append_assoc, List.drop_left]
            have hle : t1.length ≤ s.length := hpre1.length_le
            have hpos : 0 < t1.length := List.length_pos.mpr h1
            have h1m : t1.length ∈ ends (fuel + 1) r s := iha s (fuel + 1) hpre1 hlen
            have h2m : t2.length ∈ ends fuel (.star r) (s.drop t1.length) := by
              apply ihstar
              · rw [hdrop]; exact List.prefix_append t2 u
              · simp only [List.length_drop]; omega
            rw [ends_succ, endsF]
            refine List.mem_append.mpr (Or.inl ?_)
            refine List.mem_flatMap.mpr ⟨t1.length, ?_, ?_⟩
            · exact List.mem_filter.mpr ⟨h1m, by simp [hpos, hle]⟩
            · exact List.mem_map.mpr ⟨t2.length, h2m, by simp [List.length_append]⟩

/-- The match `re.match` reports is sound: its end lies within the text
and the matched prefix belongs to the pattern's language. -/
theorem reMatchEnd_sound (p : Regex) (s : Str) (e : Nat)
    (h : reMatchEnd p s = some e) : e ≤ s.length ∧ Matches p (s.take e) :=
  ends_sound (s.length + 1) p s e (Nat.lt_succ_self _)
    (List.mem_of_mem_head? (Option.mem_def.mpr h))

/-- The matcher is complete: when some prefix of `s` belongs to the
pattern's language, `re.match` finds a match. -/
theorem reMatchEnd_isSome_of_matches {p : Regex} {pre s : Str}
    (hm : Matches p pre) (hpre : pre <+: s) :
    (reMatchEnd p s).isSome = true := by
  have hmem := ends_complete hm s (s.length + 1) hpre (Nat.lt_succ_self _)
  have hne : ends (s.length + 1) p s ≠ [] := List.ne_nil_of_mem hmem
  unfold reMatchEnd
  simpa using hne

/-- C6: for every pattern `p` and text: the partial-mode
`Pattern(p).parse` succeeds iff the text has a prefix in the language of
`p` anchored at the start, and on success the payload is the matched
prefix `text[: match.end()]` (a matching prefix whose length is the
match end); the total-mode call succeeds iff the anchored match spans
the entire text, in which case the payload is the whole text, and
returns the failure sentinel otherwise — even when a proper prefix
matched. -/
theorem pattern_anchoring (g : Grammar) (a : Addr) (p : Regex) (fuel : Nat)
    (text : Str) (hg : g[a]? = some (.regexParser p)) :
    ((∃ r, Parser.parse g (fuel + 1) a text true = some r ∧
        r ≠ ParseResult.FAILED) ↔ ∃ pre, pre <+: text ∧ Matches p pre) ∧
    (∀ e, reMatchEnd p text = some e →
      Parser.parse g (fuel + 1) a text true = some (.strRes a (text.take e)) ∧
      text.take e <+: text ∧ Matches p (text.take e) ∧
      (ParseResult.strRes a (text.take e)).length = e) ∧
    ((∃ r, Parser.parse g (fuel + 1) a text false = some r ∧
        r ≠ ParseResult.FAILED) ↔ reMatchEnd p text = some text.length) ∧
    (reMatchEnd p text = some text.length →
      Parser.parse g (fuel + 1) a text false = some (.strRes a text)) ∧
    (reMatchEnd p text ≠ some text.length →
      Parser.parse g (fuel + 1) a text false = some ParseResult.FAILED) := by
  have hparse : ∀ pm, Parser.parse g (fuel + 1) a text pm =
      some (RegexParser.parse a p text pm) := by
    intro pm; rw [Parser.parse, hg]
  refine ⟨⟨?_, ?_⟩, ?_, ⟨?_, ?_⟩, ?_, ?_⟩
  · rintro ⟨r, hr, hrne⟩
    rw [hparse true] at hr
    unfold RegexParser.parse at hr
    cases hre : reMatchEnd p text with
    | none =>
        rw [hre] at hr
        exact absurd (Option.some.inj hr).symm hrne
    | some e =>
        obtain ⟨hle, hm⟩ := reMatchEnd_sound p text e hre
        exact ⟨text.take e, List.take_prefix e text, hm⟩
  · rintro ⟨pre, hpre, hm⟩
    have hsome := reMatchEnd_isSome_of_matches hm hpre
    obtain ⟨e, hre⟩ := Option.isSome_iff_exists.mp hsome
    refine ⟨.strRes a (text.take e), ?_, by simp [ParseResult.FAILED]⟩
    rw [hparse true]
    unfold RegexParser.parse
    rw [hre]
    simp
  · intro e hre
    obtain ⟨hle, hm⟩ := reMatchEnd_sound p text e hre
    refine ⟨?_, List.take_prefix e text, hm, ?_⟩
    · rw [hparse true]
      unfold RegexParser.parse
      rw [hre]
      simp
    · show (text.take e).length = e
      rw [List.length_take]
      omega
  · rintro ⟨r, hr, hrne⟩
    rw [hparse false] at hr
    unfold RegexParser.parse at hr
    cases hre : reMatchEnd p text with
    | none =>
        rw [hre] at hr
        exact absurd (Option.some.inj hr).symm hrne
    | some e =>
        rw [hre] at hr
        obtain ⟨hle, hm⟩ := reMatchEnd_sound p text e hre
        by_cases heq : text = text.take e
        · have hlen := congrArg List.length heq
          rw [List.length_take] at hlen
          have he : e = text.length := by omega
          rw [he]
        · simp only at hr
          rw [if_neg (show ¬ (false = true) by simp), if_pos heq] at hr
          exact absurd (Option.some.inj hr).symm hrne
  · intro hre
    refine ⟨.strRes a text, ?_, by simp [ParseResult.FAILED]⟩
    rw [hparse false]
    unfold RegexParser.parse
    rw [hre]
    simp [List.take_length]
  · intro hre
    rw [hparse false]
    unfold RegexParser.parse
    rw [hre]
    simp [List.take_length]
  · intro hne
    rw [hparse false]
    unfold RegexParser.parse
    cases hre : reMatchEnd p text with
    | none => rfl
    | some e =>
        obtain ⟨hle, _⟩ := reMatchEnd_sound p text e hre
        have hlt : e < text.length :=
          lt_of_le_of_ne hle (fun h => hne (by rw [hre, h]))
        have hneq : text ≠ text.take e := by
          intro h
          have := congrArg List.length h
          rw [List.length_take] at this
          omega
        simp only [if_neg (by simp : ¬ (false = true)), if_pos hneq]
        rfl

/-- C6 witness: the pattern `[0-9]+` on the text `"12a"`: the partial
call succeeds on the matched prefix `"12"`, the total call fails even
though that proper prefix matched. -/
theorem pattern_anchoring_witness :
    ((∃ r, Parser.parse [Parser.regexParser digitsPattern] 1 0
        ['1', '2', 'a'] true = some r ∧ r ≠ ParseResult.FAILED) ↔
      ∃ pre, pre <+: (['1', '2', 'a'] : Str) ∧ Matches digitsPattern pre) ∧
    (∀ e, reMatchEnd digitsPattern ['1', '2', 'a'] = some e →
      Parser.parse [Parser.regexParser digitsPattern] 1 0 ['1', '2', 'a'] true =
        some (.strRes 0 ((['1', '2', 'a'] : Str).take e)) ∧
      (['1', '2', 'a'] : Str).take e <+: (['1', '2', 'a'] : Str) ∧
      Matches digitsPattern ((['1', '2', 'a'] : Str).take e) ∧
      (ParseResult.strRes 0 ((['1', '2', 'a'] : Str).take e)).length = e) ∧
    ((∃ r, Parser.parse [Parser.regexParser digitsPattern] 1 0
        ['1', '2', 'a'] false = some r ∧ r ≠ ParseResult.FAILED) ↔
      reMatchEnd digitsPattern ['1', '2', 'a'] =
        some (['1', '2', 'a'] : Str).length) ∧
    (reMatchEnd digitsPattern ['1', '2', 'a'] =
        some (['1', '2', 'a'] : Str).length →
      Parser.parse [Parser.regexParser digitsPattern] 1 0 ['1', '2', 'a'] false =
        some (.strRes 0 ['1', '2', 'a'])) ∧
    (reMatchEnd digitsPattern ['1', '2', 'a'] ≠
        some (['1', '2', 'a'] : Str).length →
      Parser.parse [Parser.regexParser digitsPattern] 1 0 ['1', '2', 'a'] false =
        some ParseResult.FAILED) :=
  pattern_anchoring [Parser.regexParser digitsPattern] 0 digitsPattern 0
    ['1', '2', 'a'] rfl

end ParserSpec
